import Mathlib

/-!
Verification of `run_simulation.py` (rare-variant association simulation).

The Python source is shallowly embedded below.  Randomness is modelled by
oracle streams (`rng : ℕ → ℕ` for integer draws, `permOf : ℕ → List ℕ` for
permutation draws); the global NumPy random state is modelled by threading a
counter `ctr` through the computation, each draw consuming one position of
the stream.  Unbounded `while True:` loops are modelled with an explicit
`fuel` argument returning `Option`: `none` means the fuel was exhausted, so
theorems about a run that "terminates" hypothesise a `some` result.
Exceptions raised by NumPy (in particular `np.random.choice` on an empty
array raises `ValueError: a must be non-empty`) are modelled with
`Except String`.
-/

namespace RVSim

open scoped Matrix

/-- First-match association lookup with default, modelling a Python
`dict`/`defaultdict` read `d[k]` (insertion-ordered key list). -/
def lookupD {α : Type} [DecidableEq α] {β : Type} : List (α × β) → α → β → β
  | [], _, d => d
  | (k, v) :: rest, a, d => if k = a then v else lookupD rest a d

/-- `mac_positions[key].append(idx)` on an insertion-ordered association
list, modelling `defaultdict(list)` mutation. -/
def addPos : List (ℕ × List ℕ) → ℕ → ℕ → List (ℕ × List ℕ)
  | [], key, idx => [(key, [idx])]
  | (k, ps) :: rest, key, idx =>
    if k = key then (k, ps ++ [idx]) :: rest else (k, ps) :: addPos rest key idx

/-- Source lines 303-305: `for mac_i, x in enumerate(mac): mac_positions[x].append(mac_i)`.
Note the loop runs over the WHOLE mac vector, i.e. over every variant index of
the chromosome (the `np.setdiff1d` result of line 299 is never used). -/
def buildMacPositionsAux (acc : List (ℕ × List ℕ)) : List ℕ → ℕ → List (ℕ × List ℕ)
  | [], _ => acc
  | x :: rest, i => buildMacPositionsAux (addPos acc x i) rest (i + 1)

/-- The `mac_positions` map of `creating_mask_causal` (source lines 302-305). -/
def buildMacPositions (mac : List ℕ) : List (ℕ × List ℕ) :=
  buildMacPositionsAux [] mac 0

/-- Source lines 307-310: `for idx in causal_idxs: causal_mac_positions[mac[idx]].append(idx)`. -/
def buildCausalMacPositions (mac : List ℕ) (causal : List ℕ) : List (ℕ × List ℕ) :=
  causal.foldl (fun m idx => addPos m (mac.getD idx 0) idx) []

/-- Source line 299 (computed and then never used by the source;
kept here to mirror the code): `np.setdiff1d(np.arange(n_variants), causal_idxs)`. -/
def noncausalVariantIdxs (n_variants : ℕ) (causal : List ℕ) : List ℕ :=
  (List.range n_variants).filter fun i => decide (i ∉ causal)

/-- The accumulation loop of `select_variants_for_cmac` (source lines 347-354):
`while current_cmac < cmac:` draw a MAC value from the eligible pool
(`np.random.choice` raises on an empty pool), accept it if it does not
overshoot, and shrink eligibility to values at most the remaining target. -/
def comboLoop (rng : ℕ → ℕ) (target : ℕ) :
    ℕ → ℕ → ℕ → List ℕ → List ℕ → Option (Except String (List ℕ × ℕ))
  | 0, _, _, _, _ => none
  | fuel + 1, ctr, current, macs, acc =>
    if current < target then
      match macs with
      | [] => some (Except.error "a must be non-empty")
      | m :: ms =>
        let mac_ := (m :: ms).getD (rng ctr % (m :: ms).length) m
        if current + mac_ ≤ target then
          comboLoop rng target fuel (ctr + 1) (current + mac_)
            ((m :: ms).filter fun x => x ≤ target - (current + mac_)) (acc ++ [mac_])
        else
          comboLoop rng target fuel (ctr + 1) current (m :: ms) acc
    else some (Except.ok (acc, ctr))

/-- Source lines 357-362: pick one concrete variant for one accepted MAC value:
`i = int(n_variants * x)` for `x` uniform in `[0,1)` (modelled as an arbitrary
index `r1 % n`), `j = min(i + 20, n_variants)`, then `np.random.choice` from
the slice `positions[i:j]` (raises on an empty position list). -/
def pickVariant (r1 r2 : ℕ) (positions : List ℕ) : Except String ℕ :=
  match positions with
  | [] => Except.error "a must be non-empty"
  | p :: ps =>
    let n := (p :: ps).length
    let i := r1 % n
    let window := ((p :: ps).drop i).take 20
    Except.ok (window.getD (r2 % window.length) p)

/-- The selection loop of `select_variants_for_cmac` (source lines 356-362):
one concrete variant per accepted MAC value in the combination. -/
def pickVariants (rng : ℕ → ℕ) (mac_positions : List (ℕ × List ℕ)) :
    List ℕ → ℕ → Except String (List ℕ × ℕ)
  | [], ctr => Except.ok ([], ctr)
  | m :: rest, ctr =>
    match pickVariant (rng ctr) (rng (ctr + 1)) (lookupD mac_positions m []) with
    | Except.error e => Except.error e
    | Except.ok v =>
      match pickVariants rng mac_positions rest (ctr + 2) with
      | Except.error e => Except.error e
      | Except.ok (vs, ctr') => Except.ok (v :: vs, ctr')

/-- `select_variants_for_cmac(mac_positions, cmac)` (source lines 340-364). -/
def select_variants_for_cmac (rng : ℕ → ℕ) (selFuel ctr : ℕ)
    (mac_positions : List (ℕ × List ℕ)) (cmac : ℕ) :
    Option (Except String (List ℕ × ℕ)) :=
  match comboLoop rng cmac selFuel ctr 0
      ((mac_positions.map Prod.fst).filter fun m => m ≤ cmac) [] with
  | none => none
  | some (Except.error e) => some (Except.error e)
  | some (Except.ok (combo, ctr')) =>
    match pickVariants rng mac_positions combo ctr' with
    | Except.error e => some (Except.error e)
    | Except.ok (sel, ctr'') => some (Except.ok (sel, ctr''))

/-- Sum of the MAC values (`mac[v]`) of a variant-index list, with
multiplicity: `np.sum(mac[selected_variants])`. -/
def macSum (mac : List ℕ) (s : List ℕ) : ℕ :=
  (s.map fun v => mac.getD v 0).sum

theorem getD_mem_or_default {α : Type} (l : List α) (i : ℕ) (d : α) :
    l.getD i d ∈ l ∨ l.getD i d = d := by
  induction l generalizing i with
  | nil => right; simp
  | cons x xs ih =>
    cases i with
    | zero => left; simp
    | succ n =>
      rw [List.getD_cons_succ]
      rcases ih n with h | h
      · exact Or.inl (List.mem_cons_of_mem _ h)
      · exact Or.inr h

theorem lookupD_mem {α γ : Type} [DecidableEq α] (l : List (α × List γ)) (a : α) (x : γ)
    (h : x ∈ lookupD l a []) : ∃ pr ∈ l, pr.1 = a ∧ x ∈ pr.2 := by
  induction l with
  | nil => simp [lookupD] at h
  | cons kv rest ih =>
    obtain ⟨k, v⟩ := kv
    by_cases hk : k = a
    · exact ⟨(k, v), List.mem_cons_self _ _, hk, by simpa [lookupD, hk] using h⟩
    · obtain ⟨pr, hpr, hh⟩ := ih (by simpa [lookupD, hk] using h)
      exact ⟨pr, List.mem_cons_of_mem _ hpr, hh⟩

theorem comboLoop_ok_sum (rng : ℕ → ℕ) (target : ℕ) :
    ∀ fuel ctr current macs acc combo ctr',
      comboLoop rng target fuel ctr current macs acc = some (Except.ok (combo, ctr')) →
      current ≤ target → combo.sum = acc.sum + (target - current) := by
  intro fuel
  induction fuel with
  | zero =>
    intro ctr current macs acc combo ctr' h _
    simp [comboLoop] at h
  | succ n ih =>
    intro ctr current macs acc combo ctr' h hle
    by_cases hc : current < target
    · cases macs with
      | nil => simp [comboLoop, hc] at h
      | cons m ms =>
        simp only [comboLoop] at h
        rw [if_pos hc] at h
        by_cases hacc : current + (m :: ms).getD (rng ctr % (m :: ms).length) m ≤ target
        · rw [if_pos hacc] at h
          have hrec := ih _ _ _ _ _ _ h hacc
          rw [hrec, List.sum_append]
          simp only [List.sum_cons, List.sum_nil]
          omega
        · rw [if_neg hacc] at h
          exact ih _ _ _ _ _ _ h hle
    · simp only [comboLoop] at h
      rw [if_neg hc] at h
      have hcur : current = target := by omega
      have h1 : acc = combo ∧ ctr = ctr' := by
        cases macs <;> simpa using h
      obtain ⟨rfl, rfl⟩ := h1
      omega

theorem pickVariant_ok_mem (r1 r2 : ℕ) (positions : List ℕ) (v : ℕ)
    (h : pickVariant r1 r2 positions = Except.ok v) : v ∈ positions := by
  cases positions with
  | nil => simp [pickVariant] at h
  | cons p ps =>
    have hv : (((p :: ps).drop (r1 % (p :: ps).length)).take 20).getD
        (r2 % (((p :: ps).drop (r1 % (p :: ps).length)).take 20).length) p = v := by
      simpa [pickVariant] using h
    rcases getD_mem_or_default (((p :: ps).drop (r1 % (p :: ps).length)).take 20)
        (r2 % (((p :: ps).drop (r1 % (p :: ps).length)).take 20).length) p with hmem | hdef
    · rw [hv] at hmem
      exact List.mem_of_mem_drop (List.mem_of_mem_take hmem)
    · rw [hv] at hdef
      rw [← hdef]
      exact List.mem_cons_self _ _

theorem pickVariants_ok_forall2 (rng : ℕ → ℕ) (mp : List (ℕ × List ℕ)) :
    ∀ combo ctr sel ctr',
      pickVariants rng mp combo ctr = Except.ok (sel, ctr') →
      List.Forall₂ (fun m p => p ∈ lookupD mp m []) combo sel := by
  intro combo
  induction combo with
  | nil =>
    intro ctr sel ctr' h
    simp only [pickVariants, Except.ok.injEq, Prod.mk.injEq] at h
    rw [← h.1]
    exact List.Forall₂.nil
  | cons m rest ih =>
    intro ctr sel ctr' h
    simp only [pickVariants] at h
    cases hp : pickVariant (rng ctr) (rng (ctr + 1)) (lookupD mp m []) with
    | error e => rw [hp] at h; simp at h
    | ok v =>
      rw [hp] at h
      cases hr : pickVariants rng mp rest (ctr + 2) with
      | error e => rw [hr] at h; simp at h
      | ok pr =>
        obtain ⟨vs, c2⟩ := pr
        rw [hr] at h
        simp only [Except.ok.injEq, Prod.mk.injEq] at h
        rw [← h.1]
        exact List.Forall₂.cons (pickVariant_ok_mem _ _ _ _ hp) (ih _ _ _ hr)

theorem forall2_macSum (mac : List ℕ) (combo sel : List ℕ)
    (h : List.Forall₂ (fun m p => mac.getD p 0 = m) combo sel) :
    macSum mac sel = combo.sum := by
  induction h with
  | nil => rfl
  | @cons m p combo' sel' h1 _ ih =>
    simp only [macSum, List.map_cons, List.sum_cons] at ih ⊢
    rw [h1, ih]

theorem forall2_mem_right {α β : Type} {R : α → β → Prop} :
    ∀ {l1 : List α} {l2 : List β}, List.Forall₂ R l1 l2 →
      ∀ b ∈ l2, ∃ a ∈ l1, R a b := by
  intro l1 l2 h
  induction h with
  | nil => intro b hb; simp at hb
  | @cons a b l1' l2' h1 _ ih =>
    intro x hx
    rcases List.mem_cons.mp hx with rfl | hx'
    · exact ⟨a, List.mem_cons_self _ _, h1⟩
    · obtain ⟨a', ha', hr⟩ := ih x hx'
      exact ⟨a', List.mem_cons_of_mem _ ha', hr⟩

/-- Core soundness of `select_variants_for_cmac`: when the map sends each MAC
value to positions actually having that MAC and the call returns normally,
the returned indices have MACs summing exactly to the target, and every
returned index comes from one of the map's position lists. -/
theorem select_ok_sound (rng : ℕ → ℕ) (selFuel ctr : ℕ) (mp : List (ℕ × List ℕ))
    (mac : List ℕ) (cmac : ℕ) (sel : List ℕ) (ctr' : ℕ)
    (hwf : ∀ pr ∈ mp, ∀ p ∈ pr.2, mac.getD p 0 = pr.1)
    (hok : select_variants_for_cmac rng selFuel ctr mp cmac = some (Except.ok (sel, ctr'))) :
    macSum mac sel = cmac ∧ ∀ p ∈ sel, ∃ pr ∈ mp, p ∈ pr.2 := by
  unfold select_variants_for_cmac at hok
  cases hcl : comboLoop rng cmac selFuel ctr 0 ((mp.map Prod.fst).filter fun m => m ≤ cmac) [] with
  | none => rw [hcl] at hok; simp at hok
  | some r =>
    cases r with
    | error e => rw [hcl] at hok; simp at hok
    | ok pr =>
      obtain ⟨combo, c1⟩ := pr
      rw [hcl] at hok
      dsimp only at hok
      cases hpv : pickVariants rng mp combo c1 with
      | error e => rw [hpv] at hok; simp at hok
      | ok pr2 =>
        obtain ⟨sel2, c2⟩ := pr2
        rw [hpv] at hok
        simp only [Option.some.injEq, Except.ok.injEq, Prod.mk.injEq] at hok
        obtain ⟨rfl, rfl⟩ := hok
        have hsum := comboLoop_ok_sum rng cmac selFuel ctr 0 _ [] combo c1 hcl (Nat.zero_le _)
        have hf2 := pickVariants_ok_forall2 rng mp combo c1 sel2 c2 hpv
        have hco : List.Forall₂ (fun m p => mac.getD p 0 = m) combo sel2 := by
          refine hf2.imp ?_
          intro m p hp
          obtain ⟨q, hq, hq1, hq2⟩ := lookupD_mem mp m p hp
          rw [hwf q hq p hq2, hq1]
        constructor
        · rw [forall2_macSum mac combo sel2 hco, hsum]
          simp
        · intro p hp
          obtain ⟨m, _, hlk⟩ := forall2_mem_right hf2 p hp
          obtain ⟨q, hq, _, hq2⟩ := lookupD_mem mp m p hlk
          exact ⟨q, hq, hq2⟩

/-- Claim C2: whenever `select_variants_for_cmac` returns, for a MAC-to-positions
map whose position lists match the MAC vector and a target at least the smallest
MAC value present in the pool, the MACs of the returned variant indices (with
multiplicity) sum exactly to the requested target. -/
theorem select_variants_sum_exact (rng : ℕ → ℕ) (selFuel ctr : ℕ)
    (mp : List (ℕ × List ℕ)) (mac : List ℕ) (cmac : ℕ) (sel : List ℕ) (ctr' : ℕ)
    (hwf : ∀ pr ∈ mp, ∀ p ∈ pr.2, mac.getD p 0 = pr.1)
    (_hmin : ∃ pr ∈ mp, pr.1 ≤ cmac)
    (hok : select_variants_for_cmac rng selFuel ctr mp cmac = some (Except.ok (sel, ctr'))) :
    macSum mac sel = cmac :=
  (select_ok_sound rng selFuel ctr mp mac cmac sel ctr' hwf hok).1

/-- Witness for C2: a pool with MAC values 1 and 2 and target 3; the selector
returns indices `[0, 0, 0]` whose MACs sum to 3. -/
theorem select_variants_sum_exact_witness :
    ((∀ pr ∈ [((1 : ℕ), [(0 : ℕ)]), (2, [1])], ∀ p ∈ pr.2, [1, 2].getD p 0 = pr.1) ∧
      (∃ pr ∈ [((1 : ℕ), [(0 : ℕ)]), (2, [1])], pr.1 ≤ 3)) ∧
    macSum [1, 2] [0, 0, 0] = 3 :=
  ⟨⟨by decide, by decide⟩,
    select_variants_sum_exact (fun _ => 0) 5 0 [(1, [0]), (2, [1])] [1, 2] 3 [0, 0, 0] 9
      (by decide) (by decide) (by rfl)⟩

/-- Counterexample to Claim C7 as stated: with pool `{3 ↦ [0]}` and target 4, the
eligible set becomes empty after accepting MAC 3 (remaining target 1 and no value
at most 1), and the selection DOES terminate, raising the NumPy
`np.random.choice` error on the empty array — it does not loop forever without
an error as the claim asserts. -/
theorem select_empty_pool_terminates_ce :
    select_variants_for_cmac (fun _ => 0) 5 0 [(3, [0])] 4 =
      some (Except.error "a must be non-empty") := by rfl

/-- Claim C7 (amended): if during a Variant Selector invocation the eligible set
becomes empty while the running sum is still below the target, the very next
draw raises an error (`np.random.choice` on an empty array), so the selection
terminates exceptionally rather than looping; avoiding this state remains the
caller's responsibility. -/
theorem comboLoop_empty_pool_errors (rng : ℕ → ℕ) (target fuel ctr current : ℕ)
    (acc : List ℕ) (h : current < target) :
    comboLoop rng target (fuel + 1) ctr current [] acc =
      some (Except.error "a must be non-empty") := by
  simp only [comboLoop]
  rw [if_pos h]

/-- Witness for amended C7: state of the counterexample run right after MAC 3 is
accepted (running sum 3, target 4, empty eligible pool). -/
theorem comboLoop_empty_pool_errors_witness :
    3 < 4 ∧ comboLoop (fun _ => 0) 4 1 0 3 [] [3] =
      some (Except.error "a must be non-empty") :=
  ⟨by decide, comboLoop_empty_pool_errors (fun _ => 0) 4 0 0 3 [3] (by decide)⟩

/-- Claim C1 is violated by the code (code bug): in `creating_mask_causal` the
non-causal filler map `mac_positions` is built from the WHOLE MAC vector
(source lines 303-305), even though line 299 computes — and then never uses —
the causal-free index pool under the comment `## remove causal variants`.
With `mac = [2, 3]` and causal index set `{0}`: the filler map contains the
causal index 0 under MAC value 2, the filler Variant Selector call for target 2
returns exactly the causal variant `[0]`, while the discarded causal-free pool
of line 299 is `[1]` (which would have excluded it). -/
theorem creating_mask_causal_filler_includes_causal :
    0 ∈ lookupD (buildMacPositions [2, 3]) 2 [] ∧
    select_variants_for_cmac (fun _ => 0) 3 0 (buildMacPositions [2, 3]) 2 =
      some (Except.ok ([0], 3)) ∧
    noncausalVariantIdxs 2 [0] = [1] :=
  ⟨by decide, by rfl, by decide⟩

/-- The fixed cMAC bin list (source lines 230-232 and 285-287; the identical
list also appears as `self.all_bins`, lines 78-80). -/
def cmacBins : List (ℕ × ℕ) :=
  [(2, 2), (3, 3), (4, 4), (5, 5), (6, 7), (8, 9), (10, 11), (12, 14),
   (15, 20), (21, 30), (31, 60), (61, 100), (101, 500), (501, 1000)]

/-- Inner window scan of `creating_mask_null` (source lines 251-259): slide a
window of `window_size` permuted variants with skip `int(window_size*0.8)+1`
(the float product is exact integer truncation for the relevant sizes, modelled
as `window_size * 4 / 5`), accepting a window when its cMAC lies in the bin.
The loop advances `start` by at least 1 each step and stops before
`n_variants`, so fuel `n_variants + 1` (supplied by the caller) never runs out;
fuel exhaustion returns the output collected so far. -/
def nullScan (mac : List ℕ) (lo hi n_genes : ℕ) (permuted : List ℕ)
    (n_variants window_size : ℕ) :
    ℕ → ℕ → List (List ℕ) → List (List ℕ)
  | 0, _, output => output
  | fuel + 1, start, output =>
    if start + window_size < n_variants then
      if lo ≤ macSum mac ((permuted.drop start).take window_size) ∧
          macSum mac ((permuted.drop start).take window_size) ≤ hi then
        if n_genes ≤ (output ++ [(permuted.drop start).take window_size]).length then
          output ++ [(permuted.drop start).take window_size]
        else
          nullScan mac lo hi n_genes permuted n_variants window_size fuel
            (start + (window_size * 4 / 5 + 1))
            (output ++ [(permuted.drop start).take window_size])
      else
        nullScan mac lo hi n_genes permuted n_variants window_size fuel
          (start + (window_size * 4 / 5 + 1)) output
    else output

/-- Outer `while True:` loop of `creating_mask_null` for one bin (source lines
246-261): draw a fresh permutation (`permOf ctr`), draw a window width
uniformly from `[max(2, lo // 10), hi + 1)` (the float `int(bin[0]*0.1)` is
integer truncation, modelled as `lo / 10`), scan, and repeat until the bin's
gene quota is met. -/
def nullBin (rng : ℕ → ℕ) (permOf : ℕ → List ℕ) (mac : List ℕ)
    (n_variants n_genes lo hi : ℕ) :
    ℕ → ℕ → List (List ℕ) → Option (List (List ℕ) × ℕ)
  | 0, _, _ => none
  | fuel + 1, ctr, output =>
    match nullScan mac lo hi n_genes (permOf ctr) n_variants
        (max 2 (lo / 10) + rng (ctr + 1) % (hi + 1 - max 2 (lo / 10)))
        (n_variants + 1) 0 output with
    | output' =>
      if n_genes ≤ output'.length then some (output', ctr + 2)
      else nullBin rng permOf mac n_variants n_genes lo hi fuel (ctr + 2) output'

/-- The `for bin in cmac_bins:` loop of `creating_mask_null` (source lines
243-262), producing the per-bin dictionary for one chromosome. -/
def nullChrBins (rng : ℕ → ℕ) (permOf : ℕ → List ℕ) (mac : List ℕ)
    (n_variants n_genes fuel : ℕ) :
    List (ℕ × ℕ) → ℕ → Option (List ((ℕ × ℕ) × List (List ℕ)) × ℕ)
  | [], ctr => some ([], ctr)
  | bin :: rest, ctr =>
    match nullBin rng permOf mac n_variants n_genes bin.1 bin.2 fuel ctr [] with
    | none => none
    | some (out, ctr') =>
      match nullChrBins rng permOf mac n_variants n_genes fuel rest ctr' with
      | none => none
      | some (restOut, ctr'') => some ((bin, out) :: restOut, ctr'')

/-- The per-chromosome loop of `creating_mask_null` (source lines 237-263).
`n_genes` is the chromosome's floor-rounded share of `cmac_bins_count`
(line 235; the NumPy float expression is modelled by exact rational
truncation `len(mac) * cnt / total`). -/
def nullChrs (rng : ℕ → ℕ) (permOf : ℕ → List ℕ) (cnt total fuel : ℕ) :
    List (ℕ × List ℕ) → ℕ → Option (List (ℕ × List ((ℕ × ℕ) × List (List ℕ))))
  | [], _ => some []
  | (chr, mac) :: rest, ctr =>
    match nullChrBins rng permOf mac mac.length (mac.length * cnt / total) fuel
        cmacBins ctr with
    | none => none
    | some (bins, ctr') =>
      match nullChrs rng permOf cnt total fuel rest ctr' with
      | none => none
      | some restOut => some ((chr, bins) :: restOut)

/-- `creating_mask_null(mac_dict, cmac_bins_count)` (source lines 215-265). -/
def creating_mask_null (rng : ℕ → ℕ) (permOf : ℕ → List ℕ)
    (mac_dict : List (ℕ × List ℕ)) (cnt fuel : ℕ) :
    Option (List (ℕ × List ((ℕ × ℕ) × List (List ℕ)))) :=
  nullChrs rng permOf cnt ((mac_dict.map fun pr => pr.2.length).sum) fuel mac_dict 0

theorem nullScan_sound (mac : List ℕ) (lo hi n_genes : ℕ) (permuted : List ℕ)
    (n_variants window_size : ℕ) :
    ∀ fuel start output s,
      s ∈ nullScan mac lo hi n_genes permuted n_variants window_size fuel start output →
      s ∈ output ∨ (lo ≤ macSum mac s ∧ macSum mac s ≤ hi) := by
  intro fuel
  induction fuel with
  | zero => intro start output s hs; exact Or.inl hs
  | succ n ih =>
    intro start output s hs
    simp only [nullScan] at hs
    by_cases h1 : start + window_size < n_variants
    · rw [if_pos h1] at hs
      by_cases h2 : lo ≤ macSum mac ((permuted.drop start).take window_size) ∧
          macSum mac ((permuted.drop start).take window_size) ≤ hi
      · rw [if_pos h2] at hs
        by_cases h3 : n_genes ≤ (output ++ [(permuted.drop start).take window_size]).length
        · rw [if_pos h3] at hs
          rcases List.mem_append.mp hs with h | h
          · exact Or.inl h
          · right; rw [List.mem_singleton.mp h]; exact h2
        · rw [if_neg h3] at hs
          rcases ih _ _ _ hs with h | h
          · rcases List.mem_append.mp h with h' | h'
            · exact Or.inl h'
            · right; rw [List.mem_singleton.mp h']; exact h2
          · exact Or.inr h
      · rw [if_neg h2] at hs
        exact ih _ _ _ hs
    · rw [if_neg h1] at hs
      exact Or.inl hs

theorem nullBin_sound (rng : ℕ → ℕ) (permOf : ℕ → List ℕ) (mac : List ℕ)
    (n_variants n_genes lo hi : ℕ) :
    ∀ fuel ctr output out ctr',
      nullBin rng permOf mac n_variants n_genes lo hi fuel ctr output =
        some (out, ctr') →
      ∀ s ∈ out, s ∈ output ∨ (lo ≤ macSum mac s ∧ macSum mac s ≤ hi) := by
  intro fuel
  induction fuel with
  | zero => intro ctr output out ctr' h; simp [nullBin] at h
  | succ n ih =>
    intro ctr output out ctr' h s hs
    simp only [nullBin] at h
    by_cases hq : n_genes ≤ (nullScan mac lo hi n_genes (permOf ctr) n_variants
        (max 2 (lo / 10) + rng (ctr + 1) % (hi + 1 - max 2 (lo / 10)))
        (n_variants + 1) 0 output).length
    · rw [if_pos hq] at h
      simp only [Option.some.injEq, Prod.mk.injEq] at h
      rw [← h.1] at hs
      exact nullScan_sound mac lo hi n_genes (permOf ctr) n_variants _ _ _ _ s hs
    · rw [if_neg hq] at h
      rcases ih _ _ _ _ h s hs with h' | h'
      · exact nullScan_sound mac lo hi n_genes (permOf ctr) n_variants _ _ _ _ s h'
      · exact Or.inr h'

theorem nullChrBins_sound (rng : ℕ → ℕ) (permOf : ℕ → List ℕ) (mac : List ℕ)
    (n_variants n_genes fuel : ℕ) :
    ∀ bins ctr out ctr',
      nullChrBins rng permOf mac n_variants n_genes fuel bins ctr =
        some (out, ctr') →
      ∀ binOut ∈ out, ∀ s ∈ binOut.2,
        binOut.1.1 ≤ macSum mac s ∧ macSum mac s ≤ binOut.1.2 := by
  intro bins
  induction bins with
  | nil =>
    intro ctr out ctr' h binOut hbo
    simp only [nullChrBins, Option.some.injEq, Prod.mk.injEq] at h
    rw [← h.1] at hbo
    simp at hbo
  | cons bin rest ih =>
    intro ctr out ctr' h binOut hbo s hs
    simp only [nullChrBins] at h
    cases h1 : nullBin rng permOf mac n_variants n_genes bin.1 bin.2 fuel ctr [] with
    | none => rw [h1] at h; simp at h
    | some pr =>
      obtain ⟨o1, c1⟩ := pr
      rw [h1] at h
      dsimp only at h
      cases h2 : nullChrBins rng permOf mac n_variants n_genes fuel rest c1 with
      | none => rw [h2] at h; simp at h
      | some pr2 =>
        obtain ⟨o2, c2⟩ := pr2
        rw [h2] at h
        simp only [Option.some.injEq, Prod.mk.injEq] at h
        rw [← h.1] at hbo
        rcases List.mem_cons.mp hbo with rfl | hbo'
        · rcases nullBin_sound rng permOf mac n_variants n_genes bin.1 bin.2
            fuel ctr [] o1 c1 h1 s hs with h' | h'
          · simp at h'
          · exact h'
        · exact ih c1 o2 c2 h2 binOut hbo' s hs

/-- Claim C3: every variant-index set stored by the null-mode mask builder has
its members' MAC sum (with multiplicity) inside the closed interval of its
assigned bin, for every chromosome of the input MAC dictionary and every bin,
whenever the builder terminates. -/
theorem creating_mask_null_sound (rng : ℕ → ℕ) (permOf : ℕ → List ℕ)
    (mac_dict : List (ℕ × List ℕ)) (cnt fuel : ℕ)
    (res : List (ℕ × List ((ℕ × ℕ) × List (List ℕ))))
    (hok : creating_mask_null rng permOf mac_dict cnt fuel = some res) :
    List.Forall₂ (fun entry out => entry.1 = out.1 ∧
      ∀ binOut ∈ out.2, ∀ s ∈ binOut.2,
        binOut.1.1 ≤ macSum entry.2 s ∧ macSum entry.2 s ≤ binOut.1.2)
      mac_dict res := by
  unfold creating_mask_null at hok
  revert hok
  generalize ((mac_dict.map fun pr => pr.2.length).sum) = total
  generalize (0 : ℕ) = ctr0
  revert res ctr0
  induction mac_dict with
  | nil =>
    intro res ctr0 hok
    simp only [nullChrs, Option.some.injEq] at hok
    rw [← hok]
    exact List.Forall₂.nil
  | cons entry rest ih =>
    intro res ctr0 hok
    obtain ⟨chr, mac⟩ := entry
    simp only [nullChrs] at hok
    cases h1 : nullChrBins rng permOf mac mac.length (mac.length * cnt / total) fuel
        cmacBins ctr0 with
    | none => rw [h1] at hok; simp at hok
    | some pr =>
      obtain ⟨bins, c1⟩ := pr
      rw [h1] at hok
      dsimp only at hok
      cases h2 : nullChrs rng permOf cnt total fuel rest c1 with
      | none => rw [h2] at hok; simp at hok
      | some restOut =>
        rw [h2] at hok
        simp only [Option.some.injEq] at hok
        rw [← hok]
        refine List.Forall₂.cons ⟨rfl, ?_⟩ (ih restOut c1 h2)
        intro binOut hbo s hs
        exact nullChrBins_sound rng permOf mac mac.length (mac.length * cnt / total)
          fuel cmacBins ctr0 bins c1 h1 binOut hbo s hs

/-- Witness for C3: a three-variant chromosome with MACs `[1, 1, 1]`; the
builder terminates and the one accepted window `[0, 1]` has cMAC 2 inside its
bin `(2, 2)`. -/
theorem creating_mask_null_sound_witness :
    creating_mask_null (fun _ => 0) (fun _ => [0, 1, 2]) [(2, [1, 1, 1])] 0 1 =
      some [(2, [((2, 2), [[0, 1]]), ((3, 3), []), ((4, 4), []), ((5, 5), []),
        ((6, 7), []), ((8, 9), []), ((10, 11), []), ((12, 14), []), ((15, 20), []),
        ((21, 30), []), ((31, 60), []), ((61, 100), []), ((101, 500), []),
        ((501, 1000), [])])] ∧
    List.Forall₂ (fun entry out => entry.1 = out.1 ∧
      ∀ binOut ∈ out.2, ∀ s ∈ binOut.2,
        binOut.1.1 ≤ macSum entry.2 s ∧ macSum entry.2 s ≤ binOut.1.2)
      [(2, [1, 1, 1])]
      [(2, [((2, 2), [[0, 1]]), ((3, 3), []), ((4, 4), []), ((5, 5), []),
        ((6, 7), []), ((8, 9), []), ((10, 11), []), ((12, 14), []), ((15, 20), []),
        ((21, 30), []), ((31, 60), []), ((61, 100), []), ((101, 500), []),
        ((501, 1000), [])])] :=
  ⟨by rfl, creating_mask_null_sound (fun _ => 0) (fun _ => [0, 1, 2])
    [(2, [1, 1, 1])] 0 1 _ (by rfl)⟩

/-- The `while n_added < 10:` loop of `creating_mask_causal` (source lines
321-331): draw a non-causal contribution target uniformly from
`[max(lo - c, 1), hi - c + 1)`, select filler variants for it, concatenate
filler and causal sub-combinations and store the set unconditionally. -/
def causalInner (rng : ℕ → ℕ) (mp : List (ℕ × List ℕ))
    (lo hi c n_genes selFuel : ℕ) (cv : List ℕ) :
    ℕ → ℕ → List (List ℕ) → Option (Except String (List (List ℕ) × ℕ))
  | 0, ctr, output => some (Except.ok (output, ctr))
  | k + 1, ctr, output =>
    match select_variants_for_cmac rng selFuel (ctr + 1) mp
        (max (lo - c) 1 + rng ctr % (hi - c + 1 - max (lo - c) 1)) with
    | none => none
    | some (Except.error e) => some (Except.error e)
    | some (Except.ok (ncv, ctr')) =>
      if n_genes ≤ (output ++ [ncv ++ cv]).length then
        some (Except.ok (output ++ [ncv ++ cv], ctr'))
      else
        causalInner rng mp lo hi c n_genes selFuel cv k ctr' (output ++ [ncv ++ cv])

/-- The `while True:` loop of `creating_mask_causal` for one bin (source lines
315-333): draw a causal contribution target uniformly from
`[1, max(((lo + hi) // 2) // 2, 2))` (the float `* 0.5` is exact halving),
select causal variants for it from the causal map, then run the inner loop
(at most 10 sets per causal draw) until the bin's quota is met. -/
def causalBin (rng : ℕ → ℕ) (mp cmp : List (ℕ × List ℕ))
    (lo hi n_genes selFuel : ℕ) :
    ℕ → ℕ → List (List ℕ) → Option (Except String (List (List ℕ) × ℕ))
  | 0, _, _ => none
  | fuel + 1, ctr, output =>
    match select_variants_for_cmac rng selFuel (ctr + 1) cmp
        (1 + rng ctr % (max ((lo + hi) / 2 / 2) 2 - 1)) with
    | none => none
    | some (Except.error e) => some (Except.error e)
    | some (Except.ok (cv, ctr')) =>
      match causalInner rng mp lo hi (1 + rng ctr % (max ((lo + hi) / 2 / 2) 2 - 1))
          n_genes selFuel cv 10 ctr' output with
      | none => none
      | some (Except.error e) => some (Except.error e)
      | some (Except.ok (output', ctr'')) =>
        if n_genes ≤ output'.length then some (Except.ok (output', ctr''))
        else causalBin rng mp cmp lo hi n_genes selFuel fuel ctr'' output'

/-- The `for bin in cmac_bins:` loop of `creating_mask_causal` (source lines
313-334). -/
def causalChrBins (rng : ℕ → ℕ) (mp cmp : List (ℕ × List ℕ))
    (n_genes selFuel fuel : ℕ) :
    List (ℕ × ℕ) → ℕ → Option (Except String (List ((ℕ × ℕ) × List (List ℕ)) × ℕ))
  | [], ctr => some (Except.ok ([], ctr))
  | bin :: rest, ctr =>
    match causalBin rng mp cmp bin.1 bin.2 n_genes selFuel fuel ctr [] with
    | none => none
    | some (Except.error e) => some (Except.error e)
    | some (Except.ok (out, ctr')) =>
      match causalChrBins rng mp cmp n_genes selFuel fuel rest ctr' with
      | none => none
      | some (Except.error e) => some (Except.error e)
      | some (Except.ok (restOut, ctr'')) =>
        some (Except.ok ((bin, out) :: restOut, ctr''))

/-- The per-chromosome loop of `creating_mask_causal` (source lines 292-335):
the filler map `mac_positions` is built from the WHOLE MAC vector (lines
303-305), the causal map from the causal indices (lines 308-310), and
`n_genes` is the chromosome's floor-rounded share of `cmac_bins_count`. -/
def causalChrs (rng : ℕ → ℕ) (causalOf : ℕ → List ℕ) (cnt total selFuel fuel : ℕ) :
    List (ℕ × List ℕ) → ℕ →
      Option (Except String (List (ℕ × List ((ℕ × ℕ) × List (List ℕ)))))
  | [], _ => some (Except.ok [])
  | (chr, mac) :: rest, ctr =>
    match causalChrBins rng (buildMacPositions mac)
        (buildCausalMacPositions mac (causalOf chr))
        (mac.length * cnt / total) selFuel fuel cmacBins ctr with
    | none => none
    | some (Except.error e) => some (Except.error e)
    | some (Except.ok (bins, ctr')) =>
      match causalChrs rng causalOf cnt total selFuel fuel rest ctr' with
      | none => none
      | some (Except.error e) => some (Except.error e)
      | some (Except.ok restOut) => some (Except.ok ((chr, bins) :: restOut))

/-- `creating_mask_causal(mac_dict, causal_idx_dict, cmac_bins_count)`
(source lines 269-337). -/
def creating_mask_causal (rng : ℕ → ℕ) (mac_dict : List (ℕ × List ℕ))
    (causalOf : ℕ → List ℕ) (cnt selFuel fuel : ℕ) :
    Option (Except String (List (ℕ × List ((ℕ × ℕ) × List (List ℕ))))) :=
  causalChrs rng causalOf cnt ((mac_dict.map fun pr => pr.2.length).sum)
    selFuel fuel mac_dict 0

theorem addPos_coh (P : ℕ → ℕ → Prop) :
    ∀ (acc : List (ℕ × List ℕ)) (key idx : ℕ),
      (∀ pr ∈ acc, ∀ p ∈ pr.2, P p pr.1) → P idx key →
      ∀ pr ∈ addPos acc key idx, ∀ p ∈ pr.2, P p pr.1 := by
  intro acc
  induction acc with
  | nil =>
    intro key idx _ hP pr hpr p hp
    simp only [addPos, List.mem_singleton] at hpr
    rw [hpr] at hp ⊢
    simp only [List.mem_singleton] at hp
    rw [hp]
    exact hP
  | cons kv rest ih =>
    intro key idx hacc hP pr hpr p hp
    obtain ⟨k, ps⟩ := kv
    by_cases hk : k = key
    · simp only [addPos, if_pos hk] at hpr
      rcases List.mem_cons.mp hpr with rfl | hpr'
      · rcases List.mem_append.mp hp with h | h
        · exact hacc (k, ps) (List.mem_cons_self _ _) p h
        · rw [List.mem_singleton.mp h]
          simpa [hk] using hP
      · exact hacc pr (List.mem_cons_of_mem _ hpr') p hp
    · simp only [addPos, if_neg hk] at hpr
      rcases List.mem_cons.mp hpr with rfl | hpr'
      · exact hacc (k, ps) (List.mem_cons_self _ _) p hp
      · exact ih key idx (fun q hq => hacc q (List.mem_cons_of_mem _ hq)) hP pr hpr' p hp

theorem buildMacPositionsAux_coh (mac : List ℕ) :
    ∀ (l : List ℕ) (i : ℕ) (acc : List (ℕ × List ℕ)),
      (∀ pr ∈ acc, ∀ p ∈ pr.2, mac.getD p 0 = pr.1) →
      (∀ j, j < l.length → l.getD j 0 = mac.getD (i + j) 0) →
      ∀ pr ∈ buildMacPositionsAux acc l i, ∀ p ∈ pr.2, mac.getD p 0 = pr.1 := by
  intro l
  induction l with
  | nil => intro i acc hacc _ pr hpr; exact hacc pr hpr
  | cons x rest ih =>
    intro i acc hacc hl pr hpr
    refine ih (i + 1) (addPos acc x i) ?_ ?_ pr hpr
    · refine addPos_coh (fun p k => mac.getD p 0 = k) acc x i hacc ?_
      have := hl 0 (by simp)
      simpa using this.symm
    · intro j hj
      have := hl (j + 1) (by simpa using Nat.succ_lt_succ hj)
      simpa [Nat.add_assoc, Nat.add_comm 1 j] using this

theorem buildMacPositions_coh (mac : List ℕ) :
    ∀ pr ∈ buildMacPositions mac, ∀ p ∈ pr.2, mac.getD p 0 = pr.1 := by
  refine buildMacPositionsAux_coh mac mac 0 [] (by simp) ?_
  intro j hj
  simp

theorem buildCausalMacPositions_coh (mac : List ℕ) (causal : List ℕ) :
    ∀ pr ∈ buildCausalMacPositions mac causal, ∀ p ∈ pr.2,
      mac.getD p 0 = pr.1 ∧ p ∈ causal := by
  have main : ∀ (l acc : List _),
      (∀ pr ∈ acc, ∀ p ∈ pr.2, mac.getD p 0 = pr.1 ∧ p ∈ causal) →
      (∀ x ∈ l, x ∈ causal) →
      ∀ pr ∈ l.foldl (fun m idx => addPos m (mac.getD idx 0) idx) acc, ∀ p ∈ pr.2,
        mac.getD p 0 = pr.1 ∧ p ∈ causal := by
    intro l
    induction l with
    | nil => intro acc hacc _ pr hpr; exact hacc pr hpr
    | cons x rest ih =>
      intro acc hacc hl pr hpr
      simp only [List.foldl_cons] at hpr
      refine ih (addPos acc (mac.getD x 0) x) ?_
        (fun y hy => hl y (List.mem_cons_of_mem _ hy)) pr hpr
      exact addPos_coh (fun p k => mac.getD p 0 = k ∧ p ∈ causal) acc (mac.getD x 0) x
        hacc ⟨rfl, hl x (List.mem_cons_self _ _)⟩
  exact main causal [] (by simp) (fun x hx => hx)

theorem macSum_append (mac a b : List ℕ) :
    macSum mac (a ++ b) = macSum mac a + macSum mac b := by
  simp [macSum]

/-- For every bin of the fixed list and every admissible causal contribution
`c`, the non-causal draw `randint(max(lo - c, 1), hi - c + 1)` is well defined
and forces the combined cMAC `c + nc` into `[lo, hi]`. -/
theorem causal_draw_bounds (lo hi c r : ℕ) (hlo : 2 ≤ lo) (hlh : lo ≤ hi)
    (hc1 : 1 ≤ c) (hcu : c + 1 ≤ max ((lo + hi) / 2 / 2) 2) :
    lo ≤ c + (max (lo - c) 1 + r % (hi - c + 1 - max (lo - c) 1)) ∧
    c + (max (lo - c) 1 + r % (hi - c + 1 - max (lo - c) 1)) ≤ hi := by
  have hchi : c < hi := by
    rcases Nat.le_total ((lo + hi) / 2 / 2) 2 with h | h
    · rw [Nat.max_eq_right h] at hcu; omega
    · rw [Nat.max_eq_left h] at hcu; omega
  have hab : max (lo - c) 1 < hi - c + 1 := by
    rcases Nat.le_total (lo - c) 1 with h | h
    · rw [Nat.max_eq_right h]; omega
    · rw [Nat.max_eq_left h]; omega
  have hmod : r % (hi - c + 1 - max (lo - c) 1) < hi - c + 1 - max (lo - c) 1 :=
    Nat.mod_lt _ (by omega)
  rcases Nat.le_total (lo - c) 1 with h | h
  · rw [Nat.max_eq_right h] at hmod ⊢; omega
  · rw [Nat.max_eq_left h] at hmod ⊢; omega

theorem causalInner_sound (rng : ℕ → ℕ) (mp : List (ℕ × List ℕ))
    (mac causal : List ℕ) (lo hi c n_genes selFuel : ℕ) (cv : List ℕ)
    (hmp : ∀ pr ∈ mp, ∀ p ∈ pr.2, mac.getD p 0 = pr.1)
    (hcv : ∃ p ∈ cv, p ∈ causal) (hcvs : macSum mac cv = c)
    (hlo : 2 ≤ lo) (hlh : lo ≤ hi) (hc1 : 1 ≤ c)
    (hcu : c + 1 ≤ max ((lo + hi) / 2 / 2) 2) :
    ∀ k ctr output out ctr',
      (∀ s ∈ output, (∃ p ∈ s, p ∈ causal) ∧
        lo ≤ macSum mac s ∧ macSum mac s ≤ hi) →
      causalInner rng mp lo hi c n_genes selFuel cv k ctr output =
        some (Except.ok (out, ctr')) →
      ∀ s ∈ out, (∃ p ∈ s, p ∈ causal) ∧ lo ≤ macSum mac s ∧ macSum mac s ≤ hi := by
  intro k
  induction k with
  | zero =>
    intro ctr output out ctr' hout h
    simp only [causalInner, Option.some.injEq, Except.ok.injEq, Prod.mk.injEq] at h
    rw [← h.1]
    exact hout
  | succ n ih =>
    intro ctr output out ctr' hout h
    simp only [causalInner] at h
    cases hsel : select_variants_for_cmac rng selFuel (ctr + 1) mp
        (max (lo - c) 1 + rng ctr % (hi - c + 1 - max (lo - c) 1)) with
    | none => rw [hsel] at h; simp at h
    | some r =>
      cases r with
      | error e => rw [hsel] at h; simp at h
      | ok pr =>
        obtain ⟨ncv, c1⟩ := pr
        rw [hsel] at h
        dsimp only at h
        have hns := select_ok_sound rng selFuel (ctr + 1) mp mac _ ncv c1 hmp hsel
        have hnew : (∃ p ∈ ncv ++ cv, p ∈ causal) ∧
            lo ≤ macSum mac (ncv ++ cv) ∧ macSum mac (ncv ++ cv) ≤ hi := by
          obtain ⟨p0, hp0, hp0c⟩ := hcv
          refine ⟨⟨p0, List.mem_append_right _ hp0, hp0c⟩, ?_⟩
          rw [macSum_append, hns.1, hcvs]
          have := causal_draw_bounds lo hi c (rng ctr) hlo hlh hc1 hcu
          omega
        have hout' : ∀ s ∈ output ++ [ncv ++ cv], (∃ p ∈ s, p ∈ causal) ∧
            lo ≤ macSum mac s ∧ macSum mac s ≤ hi := by
          intro s hs
          rcases List.mem_append.mp hs with h' | h'
          · exact hout s h'
          · rw [List.mem_singleton.mp h']; exact hnew
        by_cases hq : n_genes ≤ (output ++ [ncv ++ cv]).length
        · rw [if_pos hq] at h
          simp only [Option.some.injEq, Except.ok.injEq, Prod.mk.injEq] at h
          rw [← h.1]
          exact hout'
        · rw [if_neg hq] at h
          exact ih c1 _ out ctr' hout' h

theorem causalBin_sound (rng : ℕ → ℕ) (mp cmp : List (ℕ × List ℕ))
    (mac causal : List ℕ) (lo hi n_genes selFuel : ℕ)
    (hmp : ∀ pr ∈ mp, ∀ p ∈ pr.2, mac.getD p 0 = pr.1)
    (hcmp : ∀ pr ∈ cmp, ∀ p ∈ pr.2, mac.getD p 0 = pr.1 ∧ p ∈ causal)
    (hlo : 2 ≤ lo) (hlh : lo ≤ hi) :
    ∀ fuel ctr output out ctr',
      (∀ s ∈ output, (∃ p ∈ s, p ∈ causal) ∧
        lo ≤ macSum mac s ∧ macSum mac s ≤ hi) →
      causalBin rng mp cmp lo hi n_genes selFuel fuel ctr output =
        some (Except.ok (out, ctr')) →
      ∀ s ∈ out, (∃ p ∈ s, p ∈ causal) ∧ lo ≤ macSum mac s ∧ macSum mac s ≤ hi := by
  intro fuel
  induction fuel with
  | zero => intro ctr output out ctr' _ h; simp [causalBin] at h
  | succ n ih =>
    intro ctr output out ctr' hout h
    simp only [causalBin] at h
    cases hsel : select_variants_for_cmac rng selFuel (ctr + 1) cmp
        (1 + rng ctr % (max ((lo + hi) / 2 / 2) 2 - 1)) with
    | none => rw [hsel] at h; simp at h
    | some r =>
      cases r with
      | error e => rw [hsel] at h; simp at h
      | ok pr =>
        obtain ⟨cv, c1⟩ := pr
        rw [hsel] at h
        dsimp only at h
        have hcs := select_ok_sound rng selFuel (ctr + 1) cmp mac _ cv c1
          (fun pr hpr p hp => (hcmp pr hpr p hp).1) hsel
        have hc1 : 1 ≤ 1 + rng ctr % (max ((lo + hi) / 2 / 2) 2 - 1) := by omega
        have hcu : (1 + rng ctr % (max ((lo + hi) / 2 / 2) 2 - 1)) + 1 ≤
            max ((lo + hi) / 2 / 2) 2 := by
          have h2 : 2 ≤ max ((lo + hi) / 2 / 2) 2 := Nat.le_max_right _ _
          have := Nat.mod_lt (rng ctr) (y := max ((lo + hi) / 2 / 2) 2 - 1) (by omega)
          omega
        have hcvne : ∃ p ∈ cv, p ∈ causal := by
          cases cv with
          | nil =>
            exfalso
            have := hcs.1
            simp [macSum] at this
            omega
          | cons q qs =>
            obtain ⟨pr2, hpr2, hq2⟩ := hcs.2 q (List.mem_cons_self _ _)
            exact ⟨q, List.mem_cons_self _ _, (hcmp pr2 hpr2 q hq2).2⟩
        cases hin : causalInner rng mp lo hi
            (1 + rng ctr % (max ((lo + hi) / 2 / 2) 2 - 1)) n_genes selFuel cv 10
            c1 output with
        | none => rw [hin] at h; simp at h
        | some r2 =>
          cases r2 with
          | error e => rw [hin] at h; simp at h
          | ok pr2 =>
            obtain ⟨output', c2⟩ := pr2
            rw [hin] at h
            dsimp only at h
            have hout' := causalInner_sound rng mp mac causal lo hi _ n_genes selFuel
              cv hmp hcvne hcs.1 hlo hlh hc1 hcu 10 c1 output output' c2 hout hin
            by_cases hq : n_genes ≤ output'.length
            · rw [if_pos hq] at h
              simp only [Option.some.injEq, Except.ok.injEq, Prod.mk.injEq] at h
              rw [← h.1]
              exact hout'
            · rw [if_neg hq] at h
              exact ih c2 output' out ctr' hout' h

theorem causalChrBins_sound (rng : ℕ → ℕ) (mp cmp : List (ℕ × List ℕ))
    (mac causal : List ℕ) (n_genes selFuel fuel : ℕ)
    (hmp : ∀ pr ∈ mp, ∀ p ∈ pr.2, mac.getD p 0 = pr.1)
    (hcmp : ∀ pr ∈ cmp, ∀ p ∈ pr.2, mac.getD p 0 = pr.1 ∧ p ∈ causal) :
    ∀ bins, (∀ b ∈ bins, 2 ≤ b.1 ∧ b.1 ≤ b.2) →
    ∀ ctr out ctr',
      causalChrBins rng mp cmp n_genes selFuel fuel bins ctr =
        some (Except.ok (out, ctr')) →
      ∀ binOut ∈ out, ∀ s ∈ binOut.2,
        (∃ p ∈ s, p ∈ causal) ∧
        binOut.1.1 ≤ macSum mac s ∧ macSum mac s ≤ binOut.1.2 := by
  intro bins
  induction bins with
  | nil =>
    intro _ ctr out ctr' h binOut hbo
    simp only [causalChrBins, Option.some.injEq, Except.ok.injEq, Prod.mk.injEq] at h
    rw [← h.1] at hbo
    simp at hbo
  | cons bin rest ih =>
    intro hbins ctr out ctr' h binOut hbo s hs
    simp only [causalChrBins] at h
    cases h1 : causalBin rng mp cmp bin.1 bin.2 n_genes selFuel fuel ctr [] with
    | none => rw [h1] at h; simp at h
    | some r =>
      cases r with
      | error e => rw [h1] at h; simp at h
      | ok pr =>
        obtain ⟨o1, c1⟩ := pr
        rw [h1] at h
        dsimp only at h
        cases h2 : causalChrBins rng mp cmp n_genes selFuel fuel rest c1 with
        | none => rw [h2] at h; simp at h
        | some r2 =>
          cases r2 with
          | error e => rw [h2] at h; simp at h
          | ok pr2 =>
            obtain ⟨o2, c2⟩ := pr2
            rw [h2] at h
            simp only [Option.some.injEq, Except.ok.injEq, Prod.mk.injEq] at h
            rw [← h.1] at hbo
            rcases List.mem_cons.mp hbo with rfl | hbo'
            · have hb := hbins bin (List.mem_cons_self _ _)
              exact causalBin_sound rng mp cmp mac causal bin.1 bin.2 n_genes selFuel
                hmp hcmp hb.1 hb.2 fuel ctr [] o1 c1 (by simp) h1 s hs
            · exact ih (fun b hb => hbins b (List.mem_cons_of_mem _ hb))
                c1 o2 c2 h2 binOut hbo' s hs

/-- Claim C4: in causal (power) mode, whenever the builder terminates normally,
every generated variant set of every chromosome and bin contains at least one
variant from the chromosome's causal index set (drawn via the causal
MAC-to-positions map) and its combined cMAC (with multiplicity) lies inside the
assigned bin's closed interval — with no post-hoc validation in the builder. -/
theorem creating_mask_causal_sound (rng : ℕ → ℕ) (mac_dict : List (ℕ × List ℕ))
    (causalOf : ℕ → List ℕ) (cnt selFuel fuel : ℕ)
    (res : List (ℕ × List ((ℕ × ℕ) × List (List ℕ))))
    (hok : creating_mask_causal rng mac_dict causalOf cnt selFuel fuel =
      some (Except.ok res)) :
    List.Forall₂ (fun entry out => entry.1 = out.1 ∧
      ∀ binOut ∈ out.2, ∀ s ∈ binOut.2,
        (∃ p ∈ s, p ∈ causalOf entry.1) ∧
        binOut.1.1 ≤ macSum entry.2 s ∧ macSum entry.2 s ≤ binOut.1.2)
      mac_dict res := by
  unfold creating_mask_causal at hok
  revert hok
  generalize ((mac_dict.map fun pr => pr.2.length).sum) = total
  generalize (0 : ℕ) = ctr0
  revert res ctr0
  induction mac_dict with
  | nil =>
    intro res ctr0 hok
    simp only [causalChrs, Option.some.injEq, Except.ok.injEq] at hok
    rw [← hok]
    exact List.Forall₂.nil
  | cons entry rest ih =>
    intro res ctr0 hok
    obtain ⟨chr, mac⟩ := entry
    simp only [causalChrs] at hok
    cases h1 : causalChrBins rng (buildMacPositions mac)
        (buildCausalMacPositions mac (causalOf chr))
        (mac.length * cnt / total) selFuel fuel cmacBins ctr0 with
    | none => rw [h1] at hok; simp at hok
    | some r =>
      cases r with
      | error e => rw [h1] at hok; simp at hok
      | ok pr =>
        obtain ⟨bins, c1⟩ := pr
        rw [h1] at hok
        dsimp only at hok
        cases h2 : causalChrs rng causalOf cnt total selFuel fuel rest c1 with
        | none => rw [h2] at hok; simp at hok
        | some r2 =>
          cases r2 with
          | error e => rw [h2] at hok; simp at hok
          | ok restOut =>
            rw [h2] at hok
            simp only [Option.some.injEq, Except.ok.injEq] at hok
            rw [← hok]
            refine List.Forall₂.cons ⟨rfl, ?_⟩ (ih restOut c1 h2)
            intro binOut hbo s hs
            exact causalChrBins_sound rng (buildMacPositions mac)
              (buildCausalMacPositions mac (causalOf chr)) mac (causalOf chr)
              (mac.length * cnt / total) selFuel fuel
              (buildMacPositions_coh mac) (buildCausalMacPositions_coh mac (causalOf chr))
              cmacBins (by decide) ctr0 bins c1 h1 binOut hbo s hs

/-- Result of the causal builder on the witness input below: one chromosome
with MAC vector `[500, 1]` and causal index 1, quota share 0 (so one set per
bin). -/
def causalWitnessRes : List (ℕ × List ((ℕ × ℕ) × List (List ℕ))) :=
  [(1, [((2, 2), [List.replicate 2 1]), ((3, 3), [List.replicate 3 1]),
    ((4, 4), [List.replicate 4 1]), ((5, 5), [List.replicate 5 1]),
    ((6, 7), [List.replicate 6 1]), ((8, 9), [List.replicate 8 1]),
    ((10, 11), [List.replicate 10 1]), ((12, 14), [List.replicate 12 1]),
    ((15, 20), [List.replicate 15 1]), ((21, 30), [List.replicate 21 1]),
    ((31, 60), [List.replicate 31 1]), ((61, 100), [List.replicate 61 1]),
    ((101, 500), [List.replicate 101 1]), ((501, 1000), [[0, 1]])])]

/-- Witness for C4: on the two-variant chromosome `[500, 1]` with causal index
1 the builder terminates and every stored set contains the causal variant and
lands in its bin (for bin `(501, 1000)` the filler is the MAC-500 variant 0). -/
theorem creating_mask_causal_sound_witness :
    creating_mask_causal (fun _ => 0) [(1, [500, 1])] (fun _ => [1]) 0 600 1 =
      some (Except.ok causalWitnessRes) ∧
    List.Forall₂ (fun entry out => entry.1 = out.1 ∧
      ∀ binOut ∈ out.2, ∀ s ∈ binOut.2,
        (∃ p ∈ s, p ∈ (fun _ => [1] : ℕ → List ℕ) entry.1) ∧
        binOut.1.1 ≤ macSum entry.2 s ∧ macSum entry.2 s ≤ binOut.1.2)
      [(1, [500, 1])] causalWitnessRes :=
  ⟨by rfl, creating_mask_causal_sound (fun _ => 0) [(1, [500, 1])] (fun _ => [1])
    0 600 1 causalWitnessRes (by rfl)⟩

/-- The command-line options consumed by `check_input` (source lines 486-493);
each is `None` when not supplied. -/
structure Args where
  sparse_genotype : Option String
  null_model : Option String
  perm : Option String
  causal_idx : Option String

/-- `check_input(args)` (source lines 367-379): required-input checks, then the
chromosome list — `range(1, 23, 2)` when `--causal-idx` is supplied (power
mode) and `range(2, 23, 2)` otherwise (null mode). -/
def check_input (args : Args) : Except String (List ℕ) :=
  if args.sparse_genotype = none then Except.error "--sparse-genotype is required"
  else if args.null_model = none then Except.error "--null-model is required"
  else if args.perm = none then Except.error "--perm is required"
  else if args.causal_idx ≠ none then Except.ok (List.range' 1 11 2)
  else Except.ok (List.range' 2 11 2)

/-- Claim C10: for every argument object passing the required-input checks, the
processed chromosome list is exactly the odd chromosomes 1, 3, ..., 21 when a
causal-index input is supplied (power mode), and exactly the even chromosomes
2, 4, ..., 22 otherwise (null mode). -/
theorem check_input_chr_lists (args : Args) (l : List ℕ)
    (h : check_input args = Except.ok l) :
    l = if args.causal_idx = none
      then [2, 4, 6, 8, 10, 12, 14, 16, 18, 20, 22]
      else [1, 3, 5, 7, 9, 11, 13, 15, 17, 19, 21] := by
  unfold check_input at h
  by_cases h1 : args.sparse_genotype = none
  · rw [if_pos h1] at h; simp at h
  · rw [if_neg h1] at h
    by_cases h2 : args.null_model = none
    · rw [if_pos h2] at h; simp at h
    · rw [if_neg h2] at h
      by_cases h3 : args.perm = none
      · rw [if_pos h3] at h; simp at h
      · rw [if_neg h3] at h
        by_cases h4 : args.causal_idx = none
        · rw [if_neg (by simp [h4])] at h
          simp only [Except.ok.injEq] at h
          rw [if_pos h4, ← h]
          rfl
        · rw [if_pos (by simp [h4])] at h
          simp only [Except.ok.injEq] at h
          rw [if_neg h4, ← h]
          rfl

/-- Witness for C10: with all required inputs and a causal-index file the
chromosome list is the odd chromosomes. -/
theorem check_input_chr_lists_witness :
    check_input ⟨some "g", some "n", some "p", some "c"⟩ =
      Except.ok (List.range' 1 11 2) ∧
    List.range' 1 11 2 = if (⟨some "g", some "n", some "p", some "c"⟩ : Args).causal_idx = none
      then [2, 4, 6, 8, 10, 12, 14, 16, 18, 20, 22]
      else [1, 3, 5, 7, 9, 11, 13, 15, 17, 19, 21] :=
  ⟨by rfl, check_input_chr_lists ⟨some "g", some "n", some "p", some "c"⟩
    (List.range' 1 11 2) (by rfl)⟩

/-- One entry of the per-chromosome linkage matrix exactly as the scientist
intends it: the integer co-occurrence count `sum_t G[i,t] * G[j,t]` over the
`s` subjects. -/
def trueLd (s : ℕ) (G : ℕ → ℕ → ℕ) (i j : ℕ) : ℕ :=
  ∑ t ∈ Finset.range s, G i t * G j t

/-- One entry of the linkage matrix as computed by `_get_ld_matrix` (source
lines 88-94): the genotype matrix is cast to `np.uint16` (each entry reduced
mod 2^16) and the matrix product accumulates in unsigned 16-bit arithmetic,
i.e. the resulting entry is the co-occurrence count reduced mod 2^16. -/
def ld_uint16 (s : ℕ) (G : ℕ → ℕ → ℕ) (i j : ℕ) : ℕ :=
  (∑ t ∈ Finset.range s, (G i t % 65536) * (G j t % 65536)) % 65536

/-- Counterexample to Claim C9 as stated: an admissible genotype input (all
entries equal to 2, i.e. 16384 homozygous-minor subjects at one variant) whose
true co-occurrence count is 65536, which does NOT fit the unsigned 16-bit
range: the computed uint16 entry wraps to 0. -/
theorem ld_uint16_overflow_ce :
    ld_uint16 16384 (fun _ _ => 2) 0 0 = 0 ∧
    trueLd 16384 (fun _ _ => 2) 0 0 = 65536 ∧
    ld_uint16 16384 (fun _ _ => 2) 0 0 ≠ trueLd 16384 (fun _ _ => 2) 0 0 := by
  have h1 : ld_uint16 16384 (fun _ _ => 2) 0 0 = 0 := by
    simp [ld_uint16, Finset.sum_const, Finset.card_range]
  have h2 : trueLd 16384 (fun _ _ => 2) 0 0 = 65536 := by
    simp [trueLd, Finset.sum_const, Finset.card_range]
  exact ⟨h1, h2, by rw [h1, h2]; omega⟩

/-- Claim C9 (amended): the linkage matrix is computed after casting the
genotype matrix to unsigned 16-bit integers, so each entry is the true
co-occurrence count reduced mod 2^16; for admissible genotype entries (allele
counts at most 2) the computed entry equals the true count exactly WHEN the
true count is below 65536 — not for every admissible input. -/
theorem ld_uint16_exact_when_small (s : ℕ) (G : ℕ → ℕ → ℕ) (i j : ℕ)
    (hadm : ∀ t, t < s → G i t ≤ 2 ∧ G j t ≤ 2)
    (hsmall : trueLd s G i j < 65536) :
    ld_uint16 s G i j = trueLd s G i j := by
  have hcast : ∀ t ∈ Finset.range s, (G i t % 65536) * (G j t % 65536) =
      G i t * G j t := by
    intro t ht
    have h := hadm t (Finset.mem_range.mp ht)
    rw [Nat.mod_eq_of_lt (by omega), Nat.mod_eq_of_lt (by omega)]
  unfold ld_uint16
  rw [Finset.sum_congr rfl hcast]
  exact Nat.mod_eq_of_lt hsmall

/-- Witness for amended C9: one subject with allele count 2 at both variants;
the true count 4 is below 65536 and the uint16 entry equals it. -/
theorem ld_uint16_exact_when_small_witness :
    ((∀ t, t < 1 → (fun _ _ => 2 : ℕ → ℕ → ℕ) 0 t ≤ 2 ∧
        (fun _ _ => 2 : ℕ → ℕ → ℕ) 0 t ≤ 2) ∧
      trueLd 1 (fun _ _ => 2) 0 0 < 65536) ∧
    ld_uint16 1 (fun _ _ => 2) 0 0 = trueLd 1 (fun _ _ => 2) 0 0 :=
  ⟨⟨fun _ _ => ⟨le_refl 2, le_refl 2⟩, by decide⟩,
    ld_uint16_exact_when_small 1 (fun _ _ => 2) 0 0
      (fun _ _ => ⟨le_refl 2, le_refl 2⟩) (by decide)⟩

/-- `_variant_set_test_` (source lines 182-192), with the external STAAR test
treated as opaque: its per-voxel p-values are given as data, `none` standing
for a non-finite p-value (NaN).  `np.nansum(pvalues < sig_thresh)` counts the
voxels whose p-value is finite and below the threshold: a NaN comparison is
`False` in NumPy, so `none` is never counted as significant. -/
def sigCount (thresh : ℚ) (ps : List (Option ℚ)) : ℕ :=
  ps.countP fun p => p.elim false fun q => decide (q < thresh)

/-- `_variant_set_test` (source lines 157-180): per chromosome, per bin, per
variant set, the significant-voxel count of that set's test. -/
def variant_set_test (thresh : ℚ)
    (pvals : List (ℕ × List ((ℕ × ℕ) × List (List (Option ℚ))))) :
    List (ℕ × List ((ℕ × ℕ) × List ℕ)) :=
  pvals.map fun chrE =>
    (chrE.1, chrE.2.map fun binE => (binE.1, binE.2.map (sigCount thresh)))

/-- Source lines 201-204: for one bin, concatenate this bin's per-set
significance counts across all chromosomes (in chromosome order). -/
def concatBinCounts (counts : List (ℕ × List ((ℕ × ℕ) × List ℕ)))
    (bin : ℕ × ℕ) : List ℕ :=
  counts.foldl (fun acc chrE => acc ++ lookupD chrE.2 bin []) []

/-- Source line 208: the output column label `"_".join([str(x) for x in cmac_bin])`. -/
def binLabel (bin : ℕ × ℕ) : String :=
  toString bin.1 ++ "_" ++ toString bin.2

/-- Source line 209: `np.mean(sig_count_list) / self.n_voxels`. -/
def binValue (n_voxels : ℕ) (counts : List ℕ) : ℚ :=
  ((counts.map (Nat.cast : ℕ → ℚ)).sum / counts.length) / n_voxels

/-- `RVsimulation.run` (source lines 194-211): one labelled rate per cMAC bin. -/
def runOutput (n_voxels : ℕ) (thresh : ℚ)
    (pvals : List (ℕ × List ((ℕ × ℕ) × List (List (Option ℚ))))) :
    List (String × ℚ) :=
  cmacBins.map fun bin =>
    (binLabel bin, binValue n_voxels (concatBinCounts (variant_set_test thresh pvals) bin))

theorem mem_foldl_append {α β : Type} (f : β → List α) :
    ∀ (l : List β) (init : List α) (x : α),
      x ∈ l.foldl (fun acc e => acc ++ f e) init → x ∈ init ∨ ∃ e ∈ l, x ∈ f e := by
  intro l
  induction l with
  | nil => intro init x h; exact Or.inl h
  | cons e rest ih =>
    intro init x h
    simp only [List.foldl_cons] at h
    rcases ih (init ++ f e) x h with h' | h'
    · rcases List.mem_append.mp h' with h'' | h''
      · exact Or.inl h''
      · exact Or.inr ⟨e, List.mem_cons_self _ _, h''⟩
    · obtain ⟨e', he', hx⟩ := h'
      exact Or.inr ⟨e', List.mem_cons_of_mem _ he', hx⟩

theorem concatBinCounts_bounded (n_voxels : ℕ) (thresh : ℚ)
    (pvals : List (ℕ × List ((ℕ × ℕ) × List (List (Option ℚ))))) (bin : ℕ × ℕ)
    (hlen : ∀ chrE ∈ pvals, ∀ binE ∈ chrE.2, ∀ ps ∈ binE.2, ps.length = n_voxels) :
    ∀ c ∈ concatBinCounts (variant_set_test thresh pvals) bin, c ≤ n_voxels := by
  intro c hc
  unfold concatBinCounts at hc
  rcases mem_foldl_append (fun chrE : ℕ × List ((ℕ × ℕ) × List ℕ) => lookupD chrE.2 bin [])
      (variant_set_test thresh pvals) [] c hc with h | h
  · simp at h
  · obtain ⟨chrE', hchr', hc'⟩ := h
    obtain ⟨chrE, hchr, rfl⟩ := List.mem_map.mp hchr'
    obtain ⟨pr, hpr, _, hcpr⟩ := lookupD_mem _ bin c hc'
    obtain ⟨binE, hbinE, rfl⟩ := List.mem_map.mp hpr
    obtain ⟨ps, hps, rfl⟩ := List.mem_map.mp hcpr
    calc sigCount thresh ps ≤ ps.length := List.countP_le_length _
    _ = n_voxels := hlen chrE hchr binE hbinE ps hps

/-- Claim C6: for every cMAC bin, the reported value is the mean over all that
bin's variant sets (concatenated across chromosomes) of the per-set
significant-voxel count, divided by the number of trait dimensions; with
non-finite p-values never counted as significant, the value lies in `[0, 1]`,
and its output column is labelled `"<lo>_<hi>"`. -/
theorem run_output_bin_spec (n_voxels : ℕ) (thresh : ℚ)
    (pvals : List (ℕ × List ((ℕ × ℕ) × List (List (Option ℚ))))) (bin : ℕ × ℕ)
    (hbin : bin ∈ cmacBins)
    (hlen : ∀ chrE ∈ pvals, ∀ binE ∈ chrE.2, ∀ ps ∈ binE.2, ps.length = n_voxels)
    (hne : concatBinCounts (variant_set_test thresh pvals) bin ≠ [])
    (hv : 0 < n_voxels) :
    (binLabel bin, binValue n_voxels (concatBinCounts (variant_set_test thresh pvals) bin))
      ∈ runOutput n_voxels thresh pvals ∧
    binLabel bin = toString bin.1 ++ "_" ++ toString bin.2 ∧
    0 ≤ binValue n_voxels (concatBinCounts (variant_set_test thresh pvals) bin) ∧
    binValue n_voxels (concatBinCounts (variant_set_test thresh pvals) bin) ≤ 1 := by
  refine ⟨?_, rfl, ?_, ?_⟩
  · exact List.mem_map_of_mem _ hbin
  · unfold binValue
    apply div_nonneg (div_nonneg ?_ ?_) ?_
    · apply List.sum_nonneg
      intro x hx
      obtain ⟨n, _, rfl⟩ := List.mem_map.mp hx
      exact Nat.cast_nonneg n
    · exact Nat.cast_nonneg _
    · exact Nat.cast_nonneg _
  · unfold binValue
    have hb := concatBinCounts_bounded n_voxels thresh pvals bin hlen
    have hL : 0 < ((concatBinCounts (variant_set_test thresh pvals) bin).length : ℚ) := by
      have := List.length_pos.mpr hne
      exact_mod_cast this
    have hV : 0 < (n_voxels : ℚ) := by exact_mod_cast hv
    rw [div_div, div_le_one (by positivity)]
    have hsum : ((concatBinCounts (variant_set_test thresh pvals) bin).map
        (Nat.cast : ℕ → ℚ)).sum ≤
        ((concatBinCounts (variant_set_test thresh pvals) bin).map
          (Nat.cast : ℕ → ℚ)).length • (n_voxels : ℚ) := by
      apply List.sum_le_card_nsmul
      intro x hx
      obtain ⟨n, hn, rfl⟩ := List.mem_map.mp hx
      exact_mod_cast hb n hn
    rw [List.length_map, nsmul_eq_mul] at hsum
    exact hsum

/-- Witness for C6: one chromosome, one set in bin `(2, 2)` with p-values
`[1/4, NaN]`, threshold `1/2`, two voxels: count 1, value `1/2 ∈ [0, 1]`. -/
theorem run_output_bin_spec_witness :
    (((2 : ℕ), (2 : ℕ)) ∈ cmacBins ∧
      (∀ chrE ∈ [((1 : ℕ), [(((2 : ℕ), (2 : ℕ)),
          [[some (1/4 : ℚ), none]])])], ∀ binE ∈ chrE.2, ∀ ps ∈ binE.2,
          ps.length = 2) ∧
      concatBinCounts (variant_set_test (1/2)
        [(1, [((2, 2), [[some (1/4 : ℚ), none]])])]) (2, 2) ≠ [] ∧
      0 < 2) ∧
    ((binLabel (2, 2), binValue 2 (concatBinCounts (variant_set_test (1/2)
        [(1, [((2, 2), [[some (1/4 : ℚ), none]])])]) (2, 2)))
      ∈ runOutput 2 (1/2) [(1, [((2, 2), [[some (1/4 : ℚ), none]])])] ∧
    binLabel (2, 2) = toString (2 : ℕ) ++ "_" ++ toString (2 : ℕ) ∧
    0 ≤ binValue 2 (concatBinCounts (variant_set_test (1/2)
        [(1, [((2, 2), [[some (1/4 : ℚ), none]])])]) (2, 2)) ∧
    binValue 2 (concatBinCounts (variant_set_test (1/2)
        [(1, [((2, 2), [[some (1/4 : ℚ), none]])])]) (2, 2)) ≤ 1) :=
  ⟨⟨by decide, by decide, by decide, by decide⟩,
    run_output_bin_spec 2 (1/2) [(1, [((2, 2), [[some (1/4 : ℚ), none]])])] (2, 2)
      (by decide) (by decide) (by decide) (by decide)⟩

/-- `_get_ld_matrix` (source lines 88-94) in exact arithmetic: the linkage
matrix `vset @ vset.T` of one chromosome (`v` variants, `s` subjects); the
uint16 reduction is analysed separately in `ld_uint16`. -/
def get_ld_matrix {v s : ℕ} (G : Matrix (Fin v) (Fin s) ℝ) :
    Matrix (Fin v) (Fin v) ℝ :=
  G * Gᵀ

/-- Source lines 97-98: `half_covar_proj = np.dot(covar_U, covar_Vt)` built
from the (thin) SVD factors of the covariate matrix. -/
def half_covar_proj {s k : ℕ} (U : Matrix (Fin s) (Fin k) ℝ)
    (Vt : Matrix (Fin k) (Fin k) ℝ) : Matrix (Fin s) (Fin k) ℝ :=
  U * Vt

/-- `_get_vset_half_covar_proj` (source lines 96-103): `vset @ half_covar_proj`. -/
def get_vset_half_covar_proj {v s k : ℕ} (G : Matrix (Fin v) (Fin s) ℝ)
    (U : Matrix (Fin s) (Fin k) ℝ) (Vt : Matrix (Fin k) (Fin k) ℝ) :
    Matrix (Fin v) (Fin k) ℝ :=
  G * half_covar_proj U Vt

/-- `_get_cov_mat` per variant set (source lines 125-127):
`vset_ld[numeric_idx][:, numeric_idx] - vset_half_covar_proj @ vset_half_covar_proj.T`
with `vset_half_covar_proj` restricted to the set's rows.  `idx : Fin m → Fin v`
is the set's variant-index array. -/
def get_cov_mat {v k m : ℕ} (ld : Matrix (Fin v) (Fin v) ℝ)
    (P : Matrix (Fin v) (Fin k) ℝ) (idx : Fin m → Fin v) :
    Matrix (Fin m) (Fin m) ℝ :=
  ld.submatrix idx idx - (P.submatrix idx id) * (P.submatrix idx id)ᵀ

/-- Claim C5's stated formula, written out from the spec's words: entry
`(a, b)` is the linkage sub-block entry (genotype times genotype-transpose at
the set's indices) minus the product of the set's half-projection rows
(genotype times `U·Vt`) with their transpose, all as explicit sums over
subjects and covariate-rank dimensions. -/
def cov_mat_spec {v s k m : ℕ} (G : Matrix (Fin v) (Fin s) ℝ)
    (U : Matrix (Fin s) (Fin k) ℝ) (Vt : Matrix (Fin k) (Fin k) ℝ)
    (idx : Fin m → Fin v) : Matrix (Fin m) (Fin m) ℝ :=
  Matrix.of fun a b =>
    (∑ t, G (idx a) t * G (idx b) t) -
      ∑ j, (∑ t, G (idx a) t * ∑ r, U t r * Vt r j) *
        (∑ t, G (idx b) t * ∑ r, U t r * Vt r j)

/-- Claim C5: for every chromosome (genotype matrix `G`, SVD factors `U`, `Vt`)
and every variant set `idx`, the covariate-adjusted covariance matrix produced
by the engine equals the sub-block of the linkage matrix restricted to the
set's indices minus the product of the set's half-projection rows with their
transpose. -/
theorem get_cov_mat_eq_spec {v s k m : ℕ} (G : Matrix (Fin v) (Fin s) ℝ)
    (U : Matrix (Fin s) (Fin k) ℝ) (Vt : Matrix (Fin k) (Fin k) ℝ)
    (idx : Fin m → Fin v) :
    get_cov_mat (get_ld_matrix G) (get_vset_half_covar_proj G U Vt) idx =
      cov_mat_spec G U Vt idx := by
  ext a b
  simp [get_cov_mat, get_ld_matrix, get_vset_half_covar_proj, half_covar_proj,
    cov_mat_spec, Matrix.mul_apply, Matrix.sub_apply, Matrix.submatrix_apply,
    Matrix.transpose_apply]
  refine Finset.sum_congr rfl fun j _ => ?_
  congr 1
  refine Finset.sum_congr rfl fun t _ => ?_
  rw [mul_comm]
  congr 1
  exact Finset.sum_congr rfl fun r _ => mul_comm _ _

theorem conjT_eq_transpose {a b : ℕ} (M : Matrix (Fin a) (Fin b) ℝ) : Mᴴ = Mᵀ := by
  ext i j
  simp [Matrix.conjTranspose_apply]

theorem submatrix_ld (v s m : ℕ) (G : Matrix (Fin v) (Fin s) ℝ) (idx : Fin m → Fin v) :
    (get_ld_matrix G).submatrix idx idx =
      G.submatrix idx id * (G.submatrix idx id)ᵀ := by
  ext a b
  simp [get_ld_matrix, Matrix.mul_apply, Matrix.submatrix_apply, Matrix.transpose_apply]

theorem submatrix_proj (v s k m : ℕ) (G : Matrix (Fin v) (Fin s) ℝ)
    (U : Matrix (Fin s) (Fin k) ℝ) (Vt : Matrix (Fin k) (Fin k) ℝ)
    (idx : Fin m → Fin v) :
    (get_vset_half_covar_proj G U Vt).submatrix idx id =
      G.submatrix idx id * half_covar_proj U Vt := by
  ext a b
  simp [get_vset_half_covar_proj, Matrix.mul_apply, Matrix.submatrix_apply]

/-- The engine's covariance matrix factors as `GS * (1 - U * Uᵀ) * GSᵀ` when
the SVD factors are orthonormal. -/
theorem get_cov_mat_factor {v s k m : ℕ} (G : Matrix (Fin v) (Fin s) ℝ)
    (U : Matrix (Fin s) (Fin k) ℝ) (Vt : Matrix (Fin k) (Fin k) ℝ)
    (idx : Fin m → Fin v) (hV : Vt * Vtᵀ = 1) :
    get_cov_mat (get_ld_matrix G) (get_vset_half_covar_proj G U Vt) idx =
      G.submatrix idx id * (1 - U * Uᵀ) * (G.submatrix idx id)ᵀ := by
  unfold get_cov_mat
  rw [submatrix_ld, submatrix_proj]
  rw [Matrix.transpose_mul]
  rw [Matrix.mul_sub, Matrix.sub_mul, Matrix.mul_one]
  congr 1
  unfold half_covar_proj
  rw [Matrix.transpose_mul]
  calc G.submatrix idx id * (U * Vt) * (Vtᵀ * Uᵀ * (G.submatrix idx id)ᵀ)
      = G.submatrix idx id * (U * (Vt * Vtᵀ) * Uᵀ) * (G.submatrix idx id)ᵀ := by
        simp only [Matrix.mul_assoc]
    _ = G.submatrix idx id * (U * Uᵀ) * (G.submatrix idx id)ᵀ := by
        rw [hV, Matrix.mul_one]
    _ = G.submatrix idx id * (U * Uᵀ) * (G.submatrix idx id)ᵀ := rfl

/-- Claim C8: for well-formed inputs — orthonormal SVD factors of the
covariate matrix (`Uᵀ U = 1`, `Vt Vtᵀ = 1`) — the covariate-adjusted
covariance matrix of every variant set is symmetric and positive semidefinite
(exact-arithmetic model of the single-precision computation). -/
theorem get_cov_mat_symm_posSemidef {v s k m : ℕ} (G : Matrix (Fin v) (Fin s) ℝ)
    (U : Matrix (Fin s) (Fin k) ℝ) (Vt : Matrix (Fin k) (Fin k) ℝ)
    (idx : Fin m → Fin v) (hU : Uᵀ * U = 1) (hV : Vt * Vtᵀ = 1) :
    (get_cov_mat (get_ld_matrix G) (get_vset_half_covar_proj G U Vt) idx).IsSymm ∧
    (get_cov_mat (get_ld_matrix G) (get_vset_half_covar_proj G U Vt) idx).PosSemidef := by
  have hQsymm : (1 - U * Uᵀ)ᵀ = 1 - U * Uᵀ := by
    rw [Matrix.transpose_sub, Matrix.transpose_one, Matrix.transpose_mul,
      Matrix.transpose_transpose]
  have hQidem : (1 - U * Uᵀ) * (1 - U * Uᵀ) = 1 - U * Uᵀ := by
    rw [Matrix.mul_sub, Matrix.mul_one, Matrix.sub_mul, Matrix.one_mul]
    have : U * Uᵀ * (U * Uᵀ) = U * Uᵀ := by
      calc U * Uᵀ * (U * Uᵀ) = U * (Uᵀ * U) * Uᵀ := by simp only [Matrix.mul_assoc]
        _ = U * Uᵀ := by rw [hU, Matrix.mul_one]
    rw [this]
    abel
  have hfac := get_cov_mat_factor G U Vt idx hV
  have hps : (get_cov_mat (get_ld_matrix G)
      (get_vset_half_covar_proj G U Vt) idx).PosSemidef := by
    have hbase := Matrix.posSemidef_conjTranspose_mul_self
      ((1 - U * Uᵀ) * (G.submatrix idx id)ᵀ)
    have heq : ((1 - U * Uᵀ) * (G.submatrix idx id)ᵀ)ᴴ *
        ((1 - U * Uᵀ) * (G.submatrix idx id)ᵀ) =
        get_cov_mat (get_ld_matrix G) (get_vset_half_covar_proj G U Vt) idx := by
      rw [conjT_eq_transpose, Matrix.transpose_mul, Matrix.transpose_transpose,
        hQsymm, hfac]
      calc G.submatrix idx id * (1 - U * Uᵀ) * ((1 - U * Uᵀ) * (G.submatrix idx id)ᵀ)
          = G.submatrix idx id * ((1 - U * Uᵀ) * (1 - U * Uᵀ)) * (G.submatrix idx id)ᵀ := by
            simp only [Matrix.mul_assoc]
        _ = G.submatrix idx id * (1 - U * Uᵀ) * (G.submatrix idx id)ᵀ := by
            rw [hQidem]
    rw [heq] at hbase
    exact hbase
  refine ⟨?_, hps⟩
  have := hps.1
  unfold Matrix.IsHermitian at this
  rw [conjT_eq_transpose] at this
  exact this

/-- Witness for C8: the one-subject, one-covariate, one-variant instance with
`G = 1`, `U = 1`, `Vt = 1` satisfies the orthonormality hypotheses, and the
resulting covariance matrix is symmetric positive semidefinite. -/
theorem get_cov_mat_symm_posSemidef_witness :
    ((1 : Matrix (Fin 1) (Fin 1) ℝ)ᵀ * 1 = 1 ∧
      (1 : Matrix (Fin 1) (Fin 1) ℝ) * (1 : Matrix (Fin 1) (Fin 1) ℝ)ᵀ = 1) ∧
    ((get_cov_mat (get_ld_matrix (1 : Matrix (Fin 1) (Fin 1) ℝ))
      (get_vset_half_covar_proj (1 : Matrix (Fin 1) (Fin 1) ℝ)
        (1 : Matrix (Fin 1) (Fin 1) ℝ) (1 : Matrix (Fin 1) (Fin 1) ℝ))
      (id : Fin 1 → Fin 1)).IsSymm ∧
    (get_cov_mat (get_ld_matrix (1 : Matrix (Fin 1) (Fin 1) ℝ))
      (get_vset_half_covar_proj (1 : Matrix (Fin 1) (Fin 1) ℝ)
        (1 : Matrix (Fin 1) (Fin 1) ℝ) (1 : Matrix (Fin 1) (Fin 1) ℝ))
      (id : Fin 1 → Fin 1)).PosSemidef) :=
  ⟨⟨by simp, by simp⟩,
    get_cov_mat_symm_posSemidef (1 : Matrix (Fin 1) (Fin 1) ℝ)
      (1 : Matrix (Fin 1) (Fin 1) ℝ) (1 : Matrix (Fin 1) (Fin 1) ℝ)
      (id : Fin 1 → Fin 1) (by simp) (by simp)⟩

end RVSim
